import Mathlib

/-!
Verification of the core text-editing engine of this repository against its
natural-language specification.

The engine lives in the `textbuffer` package:
  * `position.go` — `Position` / `Range` algebra;
  * `memory_monitor.go` — the `GapBuffer`.  The file holds two
    concatenated variants; the one modelled here is the first
    (memory_monitor.go:131-983), the variant the claims cite.  Its
    mutators `Insert`/`Delete`/`Clear`/`SetText` invalidate the
    line-START cache (memory_monitor.go:510, 547, 557, 587), which is
    therefore modelled by its recomputed value `lineStarts`, but they
    never invalidate `lineCountCacheValid`, so the line-COUNT cache can
    go stale; it is carried explicitly in the `GapBuffer` state below.
    (The second variant invalidates every cache but rebuilds its line
    starts from BYTE offsets, memory_monitor.go:1596-1601; it is not
    modelled.);
  * `undo_stack.go` — the undo/redo stack;
  * `text_buffer.go` — the public `TextBuffer` API.

Modelling conventions:
  * a Go string is a sequence of Unicode scalars `List Char` where the
    code manipulates runes, and a byte sequence `List Nat` (its UTF-8
    encoding) where the code indexes or slices a string directly
    (Go string indexing is byte indexing);
  * the gap buffer is modelled by its logical scalar sequence: the
    logical content is `B[0:gapStart] ++ B[gapEnd:len(B)]`, and
    `moveGap` / `ensureGapSize` preserve it, so `Insert`/`Delete` act
    on the logical sequence as splices;
  * Go `int` values that can be negative (positions, offsets before
    clamping) are modelled by `Int`; values that are always counts or
    in-range indices by `Nat`;
  * loops are modelled by structural recursion on an explicit fuel
    argument large enough for the loop bound, so that every definition
    reduces computationally.
-/

set_option maxRecDepth 10000

namespace AiEditor

/-! ### Position and Range (`position.go`) -/

/-- `Position` (position.go:4-9): a line/column pair of Go `int`s, both
0-based. -/
structure Position where
  line : Int
  column : Int
deriving DecidableEq, Repr

/-- `Position.IsBeforeOrEqual` (position.go:19-28). -/
def Position.IsBeforeOrEqual (p other : Position) : Bool :=
  if p.line < other.line then true
  else if p.line = other.line ∧ p.column ≤ other.column then true
  else false

/-- `Position.IsBefore` (position.go:30-39). -/
def Position.IsBefore (p other : Position) : Bool :=
  if p.line < other.line then true
  else if p.line = other.line ∧ p.column < other.column then true
  else false

/-- `Position.IsAfterOrEqual` (position.go:41-44). -/
def Position.IsAfterOrEqual (p other : Position) : Bool :=
  ! p.IsBefore other

/-- `Position.IsAfter` (position.go:46-49). -/
def Position.IsAfter (p other : Position) : Bool :=
  ! p.IsBeforeOrEqual other

/-- `Position.Equals` (position.go:51-54). -/
def Position.Equals (p other : Position) : Bool :=
  p.line = other.line ∧ p.column = other.column

/-- `Range` (position.go:56-62). -/
structure Range where
  start : Position
  stop : Position
deriving DecidableEq, Repr

/-- `Range.Contains` (position.go:73-75). -/
def Range.Contains (r : Range) (position : Position) : Bool :=
  position.IsAfterOrEqual r.start && position.IsBeforeOrEqual r.stop

/-- `Range.IsEmpty` (position.go:88-90). -/
def Range.IsEmpty (r : Range) : Bool :=
  r.start.Equals r.stop

/-- The lexicographic (non-strict) order on positions, as the spec
describes it: "Total order: lexicographic on `(line, column)`". -/
def lexLE (a b : Position) : Prop :=
  a.line < b.line ∨ (a.line = b.line ∧ a.column ≤ b.column)

/-- The strict lexicographic order on positions. -/
def lexLT (a b : Position) : Prop :=
  a.line < b.line ∨ (a.line = b.line ∧ a.column < b.column)

instance (a b : Position) : Decidable (lexLE a b) := by
  unfold lexLE; infer_instance

instance (a b : Position) : Decidable (lexLT a b) := by
  unfold lexLT; infer_instance

/-! ### Gap buffer, logical model (`memory_monitor.go`)

The gap buffer's logical content is the scalar sequence
`B[0:gapStart] ++ B[gapEnd:len(B)]` of length `size`; it is modelled by
`t : List Char`.  The line-start cache is rebuilt from the logical
sequence whenever a mutation has invalidated it
(`updateLineStartCache`, memory_monitor.go:591-625), and every getter
below consults it only after that rebuild, so the cache is modelled by
the recomputed value `lineStarts t`. -/

/-- One pass of the scan in `updateLineStartCache`
(memory_monitor.go:597-614): starting at absolute offset `k`, every
newline at absolute offset `i` contributes the entry `i + 1`. -/
def nlSucc : List Char → Nat → List Nat
  | [], _ => []
  | c :: rest, k =>
    if c = '\n' then (k + 1) :: nlSucc rest (k + 1) else nlSucc rest (k + 1)

/-- `lineStartCache` as rebuilt by `updateLineStartCache`
(memory_monitor.go:591-625): `0` followed by `i + 1` for every `'\n'` at
offset `i` of the logical sequence. -/
def lineStarts (t : List Char) : List Nat :=
  0 :: nlSucc t 0

/-- The length of the rebuilt line-start cache: the value
`GapBuffer.GetLineCount` (memory_monitor.go:246-259) computes and
returns when its count cache is marked invalid.  The mutators of the
modelled variant never invalidate that cache, so the actual read,
including the possibly stale cached value, is `GapBuffer.GetLineCount`
on the cache state below; this function is the coherent count used by
the text-level conversion routines. -/
def GetLineCount (t : List Char) : Nat :=
  (lineStarts t).length

/-- `GapBuffer.getLineStart` (memory_monitor.go:348-354). -/
def getLineStart (t : List Char) (line : Int) : Nat :=
  if line < 0 ∨ (((lineStarts t).length : Nat) : Int) ≤ line then 0
  else (lineStarts t).getD line.toNat 0

/-- The binary-search loop of `GapBuffer.GetPositionAt`
(memory_monitor.go:325-340), with `left`/`right` as Go `int`s and an
explicit fuel (the loop shrinks `right - left` on every iteration, so
`L.length + 1` iterations always suffice). -/
def bsLoop (L : List Nat) (offset : Nat) :
    Nat → Nat → Int → Int → Nat
  | 0, line, _, _ => line
  | fuel + 1, line, left, right =>
    if left ≤ right then
      let mid := (left + right) / 2
      if L.getD mid.toNat 0 ≤ offset then
        bsLoop L offset fuel mid.toNat (mid + 1) right
      else
        bsLoop L offset fuel line left (mid - 1)
    else line

/-- The binary search of `GetPositionAt` with its initial state
`line = 0`, `left = 0`, `right = len(cache) - 1`. -/
def bsLine (L : List Nat) (offset : Nat) : Nat :=
  bsLoop L offset (L.length + 1) 0 0 ((L.length : Int) - 1)

/-- `GapBuffer.GetPositionAt` (memory_monitor.go:307-345) under a
COHERENT line count (its `offset ≥ size` branch calls `GetLineCount`,
which consults the count cache; this text-level version substitutes the
recomputed count).  The cache-carrying version of the modelled variant
is `GapBuffer.GetPositionAt` below; the two coincide on the
binary-search branch (`offset < size`) and whenever the cached count is
accurate or marked invalid.  The Go locals `lineCount`, `lastLine`,
`lastLineStart`, `line` are inlined. -/
def GetPositionAt (t : List Char) (offset : Int) : Position :=
  if offset < 0 then ⟨0, 0⟩
  else if (t.length : Int) ≤ offset then
    if GetLineCount t = 0 then ⟨0, 0⟩
    else
      ⟨((GetLineCount t - 1 : Nat) : Int),
        (t.length : Int) -
          (getLineStart t ((GetLineCount t - 1 : Nat) : Int) : Int)⟩
  else
    ⟨((bsLine (lineStarts t) offset.toNat : Nat) : Int),
      offset - ((lineStarts t).getD (bsLine (lineStarts t) offset.toNat) 0 : Int)⟩

/-- The Go local `lineEnd` shared by `GetOffsetAt` and `GetLineLength`
(memory_monitor.go:369-373 and 640-644): the start of the next line
minus one (excluding the newline), or `size` on the last line. -/
def lineEndOf (t : List Char) (li : Nat) : Int :=
  if li < (lineStarts t).length - 1 then ((lineStarts t).getD (li + 1) 0 : Int) - 1
  else (t.length : Int)

/-- `GapBuffer.GetOffsetAt` (memory_monitor.go:357-382); the Go locals
`lineStart`, `lineEnd` and the clamped `column` are inlined. -/
def GetOffsetAt (t : List Char) (position : Position) : Int :=
  if position.line < 0 ∨ position.column < 0 then 0
  else if (((lineStarts t).length : Nat) : Int) ≤ position.line then
    (t.length : Int)
  else
    ((lineStarts t).getD position.line.toNat 0 : Int) +
      (if ((lineStarts t).getD position.line.toNat 0 : Int) + position.column >
          lineEndOf t position.line.toNat
       then lineEndOf t position.line.toNat -
         ((lineStarts t).getD position.line.toNat 0 : Int)
       else position.column)

/-- `GapBuffer.GetLineLength` (memory_monitor.go:633-647): the length of
a line excluding its terminating newline. -/
def GetLineLength (t : List Char) (line : Int) : Int :=
  if line < 0 ∨ (((lineStarts t).length : Nat) : Int) ≤ line then 0
  else lineEndOf t line.toNat - ((lineStarts t).getD line.toNat 0 : Int)

/-- `GapBuffer.Insert` (memory_monitor.go:482-511): clamp the offset to
`[0, size]`, move the gap there and write; the effect on the logical
sequence is a splice. -/
def GapInsert (t : List Char) (position : Int) (text : List Char) : List Char :=
  if text = [] then t
  else
    let pos := if position < 0 then 0
      else if (t.length : Int) < position then (t.length : Int)
      else position
    t.take pos.toNat ++ text ++ t.drop pos.toNat

/-- `GapBuffer.Delete` (memory_monitor.go:514-548): a no-op unless
`0 ≤ start < end ≤ size`; the effect on the logical sequence is removing
the slice `[start, end)`. -/
def GapDelete (t : List Char) (start stop : Int) : List Char :=
  if start < 0 ∨ (t.length : Int) < stop ∨ stop ≤ start then t
  else t.take start.toNat ++ t.drop stop.toNat

/-- `GapBuffer.GetTextInRange` (memory_monitor.go:385-407): the half-open
slice `[start, end)` of the logical sequence, empty on invalid input. -/
def GetTextInRange (t : List Char) (start stop : Int) : List Char :=
  if start < 0 ∨ (t.length : Int) < stop ∨ stop ≤ start then []
  else (t.drop start.toNat).take (stop - start).toNat

/-! #### The gap-buffer cache state

The modelled variant's `Insert`/`Delete`/`Clear`/`SetText` reset only
`lineStartCacheValid` (memory_monitor.go:510, 547, 557, 587) — they
never touch `lineCountCacheValid`, which `NewGapBuffer`
(memory_monitor.go:194-210) initialises to `true` with
`cachedLineCount = 1`.  The line-start cache is therefore rebuilt
before every read (modelled by `lineStarts`), while the line count
read by `GetPositionAt` can be stale; the state below carries that
count cache explicitly.  (`cachedText`/`textCacheValid` never affect
an observable value and are omitted.) -/

/-- `GapBuffer` (memory_monitor.go:160-181): the logical scalar
sequence `B[0:gapStart] ++ B[gapEnd:len(B)]` together with the
line-count cache. -/
structure GapBuffer where
  text : List Char
  cachedLineCount : Nat
  lineCountCacheValid : Bool
deriving DecidableEq, Repr

/-- `NewGapBuffer` (memory_monitor.go:194-210): empty text, count cache
1 and valid. -/
def NewGapBuffer : GapBuffer :=
  ⟨[], 1, true⟩

/-- `GapBuffer.SetText` (memory_monitor.go:561-588) on the cache state:
replaces the text and resets only the line-START cache — the count
cache is left untouched. -/
def GapBuffer.SetText (gb : GapBuffer) (text : List Char) : GapBuffer :=
  ⟨text, gb.cachedLineCount, gb.lineCountCacheValid⟩

/-- `NewGapBufferWithText` (memory_monitor.go:213-219): `NewGapBuffer`
followed by `SetText` when the text is non-empty. -/
def NewGapBufferWithText (text : List Char) : GapBuffer :=
  if text = [] then NewGapBuffer else NewGapBuffer.SetText text

/-- `GapBuffer.GetLineCount` (memory_monitor.go:246-259) as a read of
the cache state: the cached value while the cache is marked valid
(which no mutator of this variant ever clears), otherwise the
recomputed line-start-cache length. -/
def GapBuffer.GetLineCount (gb : GapBuffer) : Nat :=
  if gb.lineCountCacheValid then gb.cachedLineCount
  else (lineStarts gb.text).length

/-- `GapBuffer.GetPositionAt` (memory_monitor.go:307-345) on the cache
state: the `offset ≥ size` branch reads the possibly stale
`GetLineCount`; the binary-search branch reads only the line-start
cache, invalidated by every mutator and hence recomputed. -/
def GapBuffer.GetPositionAt (gb : GapBuffer) (offset : Int) : Position :=
  if offset < 0 then ⟨0, 0⟩
  else if (gb.text.length : Int) ≤ offset then
    if gb.GetLineCount = 0 then ⟨0, 0⟩
    else
      ⟨((gb.GetLineCount - 1 : Nat) : Int),
        (gb.text.length : Int) -
          (getLineStart gb.text ((gb.GetLineCount - 1 : Nat) : Int) : Int)⟩
  else
    ⟨((bsLine (lineStarts gb.text) offset.toNat : Nat) : Int),
      offset -
        ((lineStarts gb.text).getD (bsLine (lineStarts gb.text) offset.toNat) 0 :
          Int)⟩

/-- `GapBuffer.GetOffsetAt` (memory_monitor.go:357-382) on the cache
state: it reads only the line-start cache, which every mutator of this
variant invalidates, so it is the text-level `GetOffsetAt`. -/
def GapBuffer.GetOffsetAt (gb : GapBuffer) (position : Position) : Int :=
  AiEditor.GetOffsetAt gb.text position

/-! ### Undo stack (`undo_stack.go`) -/

/-- `OperationType` (undo_stack.go:8-21). -/
inductive OperationType
  | insert
  | delete
  | replace
  | clear
  | setText
deriving DecidableEq, Repr

/-- `TextOperation` (undo_stack.go:24-33). -/
structure TextOperation where
  type : OperationType
  position : Position
  text : List Char
  oldText : List Char
deriving DecidableEq, Repr

/-- `UndoStack` (undo_stack.go:36-43).  The Go stacks hold pointers; the
records themselves are immutable after creation, so they are modelled by
values. -/
structure UndoStack where
  undoStack : List TextOperation
  redoStack : List TextOperation
  maxStackSize : Nat
deriving DecidableEq, Repr

/-- `NewUndoStack` (undo_stack.go:46-52): empty stacks, cap 100. -/
def NewUndoStack : UndoStack :=
  ⟨[], [], 100⟩

/-- `UndoStack.Push` (undo_stack.go:55-66): clear the redo stack, append
the operation, and drop the oldest entry if the cap is exceeded. -/
def UndoStack.Push (us : UndoStack) (operation : TextOperation) : UndoStack :=
  let undo := us.undoStack ++ [operation]
  if us.maxStackSize < undo.length then
    ⟨undo.drop 1, [], us.maxStackSize⟩
  else
    ⟨undo, [], us.maxStackSize⟩

/-- `UndoStack.Undo` (undo_stack.go:69-83): pop the last operation onto
the redo stack; `none` models the `"no operation to undo"` error. -/
def UndoStack.UndoStep (us : UndoStack) : Option TextOperation × UndoStack :=
  match us.undoStack.getLast? with
  | none => (none, us)
  | some operation =>
    (some operation,
      ⟨us.undoStack.dropLast, us.redoStack ++ [operation], us.maxStackSize⟩)

/-- `UndoStack.Redo` (undo_stack.go:86-100): pop the last operation of
the redo stack back onto the undo stack; `none` models the
`"no operation to redo"` error. -/
def UndoStack.RedoStep (us : UndoStack) : Option TextOperation × UndoStack :=
  match us.redoStack.getLast? with
  | none => (none, us)
  | some operation =>
    (some operation,
      ⟨us.undoStack ++ [operation], us.redoStack.dropLast, us.maxStackSize⟩)

/-- `UndoStack.CanUndo` (undo_stack.go:103-105). -/
def UndoStack.CanUndo (us : UndoStack) : Bool :=
  0 < us.undoStack.length

/-- `UndoStack.CanRedo` (undo_stack.go:108-110). -/
def UndoStack.CanRedo (us : UndoStack) : Bool :=
  0 < us.redoStack.length

/-- `UndoStack.Clear` (undo_stack.go:113-116). -/
def UndoStack.ClearSt (us : UndoStack) : UndoStack :=
  ⟨[], [], us.maxStackSize⟩

/-- The undo-stack states reachable from `NewUndoStack` by the public
operations of `undo_stack.go`. -/
inductive UndoReachable : UndoStack → Prop
  | init : UndoReachable NewUndoStack
  | push (s : UndoStack) (op : TextOperation) :
      UndoReachable s → UndoReachable (s.Push op)
  | undo (s : UndoStack) : UndoReachable s → UndoReachable s.UndoStep.2
  | redo (s : UndoStack) : UndoReachable s → UndoReachable s.RedoStep.2
  | clear (s : UndoStack) : UndoReachable s → UndoReachable s.ClearSt

/-! ### String helpers from the Go standard library

The EOL conversions and the replace-all loop use `strings.Contains`,
`strings.ReplaceAll` and `strings.Count`.  These operate on bytes, but
every pattern passed to them by `text_buffer.go` in the claims below is a
sequence of ASCII scalars, and a byte-level match of an ASCII pattern in
UTF-8 text always falls on scalar boundaries (continuation bytes are
`≥ 0x80`), so the scalar-level models here coincide with the byte-level
functions on those calls. -/

/-- `strings.Contains`: `pattern` occurs as a contiguous subsequence. -/
def containsSeq : List Char → List Char → Bool
  | t, pattern =>
    if pattern.isPrefixOf t then true
    else
      match t with
      | [] => false
      | _ :: rest => containsSeq rest pattern

/-- The recursion of `strings.ReplaceAll` for a non-empty pattern:
replace each leftmost occurrence and continue after it.  Structural on a
fuel that `replaceAllSeq` instantiates with `t.length + 1`, which is
enough because every step consumes at least one element. -/
def replaceAllFuel (pattern rep : List Char) : Nat → List Char → List Char
  | 0, t => t
  | fuel + 1, t =>
    match t with
    | [] => []
    | c :: rest =>
      if pattern.isPrefixOf (c :: rest) then
        rep ++ replaceAllFuel pattern rep fuel ((c :: rest).drop pattern.length)
      else
        c :: replaceAllFuel pattern rep fuel rest

/-- `strings.ReplaceAll(t, pattern, rep)`.  For an empty pattern Go
inserts `rep` before every scalar and at the end. -/
def replaceAllSeq (t pattern rep : List Char) : List Char :=
  if pattern = [] then rep ++ (t.map (fun c => c :: rep)).flatten
  else replaceAllFuel pattern rep (t.length + 1) t

/-- The recursion of `strings.Count` for a non-empty pattern:
non-overlapping occurrences, scanning left to right. -/
def countOccFuel (pattern : List Char) : Nat → List Char → Nat
  | 0, _ => 0
  | fuel + 1, t =>
    if pattern.isPrefixOf t then
      1 + countOccFuel pattern fuel (t.drop pattern.length)
    else
      match t with
      | [] => 0
      | _ :: rest => countOccFuel pattern fuel rest

/-- `strings.Count(t, pattern)`.  For an empty pattern Go returns
`1 + number of scalars`. -/
def countOcc (t pattern : List Char) : Nat :=
  if pattern = [] then t.length + 1
  else countOccFuel pattern (t.length + 1) t

/-! ### Text buffer (`text_buffer.go`) -/

/-- `EOLType` (text_buffer.go:18-28). -/
inductive EOLType
  | unix
  | windows
  | mac
deriving DecidableEq, Repr

/-- The error values returned by the text-buffer operations, named after
the `errors.New` messages in `text_buffer.go`. -/
inductive GoErr
  | invalidRange
  | textNotFound
  | emptySearchText
  | noOperationToUndo
  | noOperationToRedo
deriving DecidableEq, Repr

/-- `detectEOLType` (text_buffer.go:140-153): Windows if the text
contains `"\r\n"`, else Mac if it contains `"\r"` but no `"\n"`, else
Unix. -/
def detectEOLType (text : List Char) : EOLType :=
  if containsSeq text ['\r', '\n'] then .windows
  else if containsSeq text ['\r'] ∧ ¬ containsSeq text ['\n'] then .mac
  else .unix

/-- The `TextBuffer` state (text_buffer.go:47-69) restricted to the
fields the claims are about; the language id, file path, lock, event
listeners and plug-in managers do not influence any modelled
operation. -/
structure TextBuffer where
  text : List Char
  undoStack : UndoStack
  eolType : EOLType
  modified : Bool
deriving DecidableEq, Repr

/-- `NewTextBufferWithText` (text_buffer.go:119-137): the gap buffer is
initialised with the text and the EOL type is detected from it. -/
def NewTextBufferWithText (text : List Char) : TextBuffer :=
  ⟨text, NewUndoStack, detectEOLType text, false⟩

/-- `NewTextBuffer` (text_buffer.go:112-114). -/
def NewTextBuffer : TextBuffer :=
  NewTextBufferWithText []

/-- `TextBuffer.Insert` (text_buffer.go:410-446): empty text is an
immediate no-op; otherwise the position is converted to a clamped
offset, an `Insert` record is pushed, and the gap buffer splices the
text in.  The returned error is always `none`. -/
def TextBuffer.Insert (tb : TextBuffer) (position : Position)
    (text : List Char) : TextBuffer × Option GoErr :=
  if text = [] then (tb, none)
  else
    let offset := GetOffsetAt tb.text position
    let us := tb.undoStack.Push ⟨.insert, position, text, []⟩
    (⟨GapInsert tb.text offset text, us, tb.eolType, true⟩, none)

/-- `TextBuffer.Delete` (text_buffer.go:449-490): fails with
`"invalid range"` when the converted offsets satisfy `start ≥ end`. -/
def TextBuffer.Delete (tb : TextBuffer) (r : Range) :
    TextBuffer × Option GoErr :=
  let startOffset := GetOffsetAt tb.text r.start
  let endOffset := GetOffsetAt tb.text r.stop
  if endOffset ≤ startOffset then (tb, some .invalidRange)
  else
    let oldText := GetTextInRange tb.text startOffset endOffset
    let us := tb.undoStack.Push ⟨.delete, r.start, oldText, oldText⟩
    (⟨GapDelete tb.text startOffset endOffset, us, tb.eolType, true⟩, none)

/-- `TextBuffer.Replace` (text_buffer.go:493-535): fails with
`"invalid range"` only when the converted offsets satisfy
`start > end`; otherwise it records a `Replace` and performs a delete
followed by an insert at the start offset. -/
def TextBuffer.Replace (tb : TextBuffer) (r : Range) (text : List Char) :
    TextBuffer × Option GoErr :=
  let startOffset := GetOffsetAt tb.text r.start
  let endOffset := GetOffsetAt tb.text r.stop
  if endOffset < startOffset then (tb, some .invalidRange)
  else
    let oldText := GetTextInRange tb.text startOffset endOffset
    let us := tb.undoStack.Push ⟨.replace, r.start, text, oldText⟩
    (⟨GapInsert (GapDelete tb.text startOffset endOffset) startOffset text,
      us, tb.eolType, true⟩, none)

/-- `TextBuffer.Clear` (text_buffer.go:1296-1321): empties the gap
buffer AND clears the whole undo/redo stack; no undo record is
pushed. -/
def TextBuffer.ClearBuf (tb : TextBuffer) : TextBuffer :=
  ⟨[], tb.undoStack.ClearSt, tb.eolType, true⟩

/-- `TextBuffer.SetText` (text_buffer.go:1324-1349): replaces the whole
text AND clears the whole undo/redo stack; no undo record is pushed,
and the EOL tag is left unchanged. -/
def TextBuffer.SetTextBuf (tb : TextBuffer) (text : List Char) : TextBuffer :=
  ⟨text, tb.undoStack.ClearSt, tb.eolType, true⟩

/-- `TextBuffer.Undo` (text_buffer.go:1186-1237): pop a record and
invert it against the gap buffer.  The `switch` has cases only for
`Insert`, `Delete` and `Replace`; a popped `Clear` or `SetText` record
would leave the buffer untouched. -/
def TextBuffer.Undo (tb : TextBuffer) : TextBuffer × Option GoErr :=
  match tb.undoStack.UndoStep with
  | (none, _) => (tb, some .noOperationToUndo)
  | (some operation, us) =>
    let text :=
      match operation.type with
      | .insert =>
        let startOffset := GetOffsetAt tb.text operation.position
        GapDelete tb.text startOffset (startOffset + operation.text.length)
      | .delete =>
        let offset := GetOffsetAt tb.text operation.position
        GapInsert tb.text offset operation.oldText
      | .replace =>
        let startOffset := GetOffsetAt tb.text operation.position
        GapInsert (GapDelete tb.text startOffset
          (startOffset + operation.text.length)) startOffset operation.oldText
      | .clear => tb.text
      | .setText => tb.text
    (⟨text, us, tb.eolType, true⟩, none)

/-- `TextBuffer.Redo` (text_buffer.go:1240-1291). -/
def TextBuffer.Redo (tb : TextBuffer) : TextBuffer × Option GoErr :=
  match tb.undoStack.RedoStep with
  | (none, _) => (tb, some .noOperationToRedo)
  | (some operation, us) =>
    let text :=
      match operation.type with
      | .insert =>
        GapInsert tb.text (GetOffsetAt tb.text operation.position) operation.text
      | .delete =>
        let startOffset := GetOffsetAt tb.text operation.position
        GapDelete tb.text startOffset (startOffset + operation.oldText.length)
      | .replace =>
        let startOffset := GetOffsetAt tb.text operation.position
        GapInsert (GapDelete tb.text startOffset
          (startOffset + operation.oldText.length)) startOffset operation.text
      | .clear => tb.text
      | .setText => tb.text
    (⟨text, us, tb.eolType, true⟩, none)

/-- `TextBuffer.SetEOLType` (text_buffer.go:163-205): a no-op when the
tag is unchanged; otherwise every line terminator is rewritten by the
`strings.ReplaceAll` chains of the `switch`, a `Replace` record is
pushed, and the tag is updated.  (The Go `default` branch rejecting an
out-of-range tag integer cannot be reached from the three-valued
model; the modified flag is not touched by the source.) -/
def TextBuffer.SetEOLType (tb : TextBuffer) (eolType : EOLType) :
    TextBuffer × Option GoErr :=
  if tb.eolType = eolType then (tb, none)
  else
    let text := tb.text
    let newText :=
      match eolType with
      | .unix => replaceAllSeq (replaceAllSeq text ['\r', '\n'] ['\n']) ['\r'] ['\n']
      | .windows =>
        replaceAllSeq
          (replaceAllSeq (replaceAllSeq text ['\r', '\n'] ['\n']) ['\r'] ['\n'])
          ['\n'] ['\r', '\n']
      | .mac => replaceAllSeq (replaceAllSeq text ['\r', '\n'] ['\r']) ['\n'] ['\r']
    let us := tb.undoStack.Push ⟨.replace, ⟨0, 0⟩, newText, text⟩
    (⟨newText, us, eolType, tb.modified⟩, none)

/-- The `regex == true` branch of `TextBuffer.ReplaceAll`
(text_buffer.go:736-775 and 859-892), for `caseSensitive = true`,
`wholeWord = false` and a pattern free of regular-expression
metacharacters: on such a pattern `regexp.Compile` succeeds and
`re.ReplaceAllString` replaces each leftmost non-overlapping literal
occurrence, i.e. it equals `strings.ReplaceAll`.  The returned count is
the source's `strings.Count(newText, replaceText)` — the number of
occurrences of the REPLACEMENT text in the NEW text. -/
def TextBuffer.ReplaceAllRegexLit (tb : TextBuffer)
    (searchText replaceText : List Char) :
    TextBuffer × Nat × Option GoErr :=
  if searchText = [] then (tb, 0, some .emptySearchText)
  else
    let text := tb.text
    let newText := replaceAllSeq text searchText replaceText
    let count := countOcc newText replaceText
    if count = 0 then (tb, 0, some .textNotFound)
    else
      let us := tb.undoStack.Push ⟨.replace, ⟨0, 0⟩, newText, text⟩
      (⟨newText, us, tb.eolType, true⟩, count, none)

/-! ### C5 — line contents and their concatenation

`GetLineContent` (memory_monitor.go:262-287) slices the Go string
returned by `GetText()` with `text[start:end]` — BYTE indexing — while
`start` and `end` come from the line-start cache, which holds SCALAR
offsets.  The byte level is therefore modelled explicitly: a Go string
is its UTF-8 byte sequence. -/

/-- The UTF-8 encoding of one Unicode scalar. -/
def utf8Bytes (c : Char) : List Nat :=
  if c.toNat < 128 then [c.toNat]
  else if c.toNat < 2048 then [192 + c.toNat / 64, 128 + c.toNat % 64]
  else if c.toNat < 65536 then
    [224 + c.toNat / 4096, 128 + (c.toNat / 64) % 64, 128 + c.toNat % 64]
  else
    [240 + c.toNat / 262144, 128 + (c.toNat / 4096) % 64,
      128 + (c.toNat / 64) % 64, 128 + c.toNat % 64]

/-- The UTF-8 byte sequence of a scalar sequence — the Go string as
indexed by `text[i]`. -/
def utf8Encode (t : List Char) : List Nat :=
  (t.map utf8Bytes).flatten

/-- The Go local `end` of `GetLineContent` (memory_monitor.go:274-278):
the NEXT line start (a scalar offset, including the newline) for inner
lines, the byte length of the text for the last line. -/
def lineContEnd (t : List Char) (i : Nat) : Nat :=
  if i < (lineStarts t).length - 1 then (lineStarts t).getD (i + 1) 0
  else (utf8Encode t).length

/-- `GapBuffer.GetLineContent` (memory_monitor.go:262-287): empty for an
out-of-range index, otherwise the byte slice `text[start:end]` of the
UTF-8 text — `start`/`end` being scalar offsets from the line-start
cache. -/
def GetLineContent (t : List Char) (lineIndex : Int) : List Nat :=
  if lineIndex < 0 then []
  else if (((lineStarts t).length : Nat) : Int) ≤ lineIndex then []
  else if (lineStarts t).getD lineIndex.toNat 0 < lineContEnd t lineIndex.toNat
  then
    ((utf8Encode t).drop ((lineStarts t).getD lineIndex.toNat 0)).take
      (lineContEnd t lineIndex.toNat - (lineStarts t).getD lineIndex.toNat 0)
  else []

/-- `GapBuffer.GetLines` (memory_monitor.go:290-304): `[""]` for the
empty text (Go: `text == ""`, i.e. the scalar sequence is empty),
otherwise one `GetLineContent` entry per line-start-cache entry. -/
def GetLines (t : List Char) : List (List Nat) :=
  if t = [] then [[]]
  else (List.range (lineStarts t).length).map fun i : Nat =>
    GetLineContent t (i : Int)

/-- Modelled from the spec: the sequence of lines of a scalar sequence,
each line including its terminating `'\n'` when present; the last line,
if unterminated, has no trailing newline, and the line count is
`1 +` the number of `'\n'` scalars. -/
def specLines : List Char → List (List Char)
  | [] => [[]]
  | c :: rest =>
    if c = '\n' then [c] :: specLines rest
    else
      match specLines rest with
      | [] => [[c]]
      | l :: ls => (c :: l) :: ls

/-- All scalars are single-byte (ASCII). -/
def asciiOnly (t : List Char) : Bool :=
  t.all fun c => c.toNat < 128

/-- The segments of a sequence determined by a list of cut offsets:
each segment runs from its cut to the next one, the final segment to
the end of the sequence. -/
def linesOfCuts {α : Type} (s : List α) : List Nat → List (List α)
  | [] => []
  | [c] => [s.drop c]
  | c1 :: c2 :: cs => (s.drop c1).take (c2 - c1) :: linesOfCuts s (c2 :: cs)

/-! ### C8 — whole-word boundaries in `FindNext`

`TextBuffer.FindNext` (text_buffer.go:538-631) slices and indexes the
Go string directly: `text[startOffset:]` (a byte slice at a scalar
offset), `strings.Index` (byte indices), and the boundary test
`isWordChar(rune(text[searchIndex-1]))` — a single BYTE cast to a code
point.  The byte level is modelled explicitly; the lower-casing used by
the case-insensitive search (`strings.ToLower`) is an external library
function and enters as a parameter `lower`. -/

/-- `strings.Index` on byte sequences, tracking the running index;
`none` models Go's `-1`. -/
def goIndexAux (pattern : List Nat) : List Nat → Nat → Option Nat
  | [], i => if pattern.isPrefixOf [] then some i else none
  | b :: rest, i =>
    if pattern.isPrefixOf (b :: rest) then some i
    else goIndexAux pattern rest (i + 1)

/-- `strings.Index(s, pattern)`: the first byte index at which `pattern`
occurs. -/
def goIndex (s pattern : List Nat) : Option Nat :=
  goIndexAux pattern s 0

/-- `isWordChar` (text_buffer.go:895-897) applied to `rune(b)` for a
byte `b < 256`: `unicode.IsLetter`, `unicode.IsNumber` or `'_'` on the
Latin-1 code point `b` — ASCII digits, letters, underscore, and the
Latin-1 letters `ª µ º À–Ö Ø–ö ø–ÿ` and numbers `² ³ ¹ ¼ ½ ¾`. -/
def isWordByte (b : Nat) : Bool :=
  decide ((48 ≤ b ∧ b ≤ 57) ∨ (65 ≤ b ∧ b ≤ 90) ∨ b = 95 ∨
    (97 ≤ b ∧ b ≤ 122) ∨ b = 170 ∨ b = 178 ∨ b = 179 ∨ b = 181 ∨ b = 185 ∨
    b = 186 ∨ b = 188 ∨ b = 189 ∨ b = 190 ∨ (192 ≤ b ∧ b ≤ 214) ∨
    (216 ≤ b ∧ b ≤ 246) ∨ (248 ≤ b ∧ b ≤ 255))

/-- The `searchFunc` local of `FindNext` (text_buffer.go:590-597):
`strings.Index` directly when case-sensitive, otherwise on the lowered
haystack and needle. -/
def searchFuncGo (cs : Bool) (lower : List Nat → List Nat)
    (s sub : List Nat) : Option Nat :=
  if cs then goIndex s sub else goIndex (lower s) (lower sub)

/-- The index computation of `FindNext` (text_buffer.go:599-607): search
from the start offset, wrapping to a search of the whole text. -/
def findIndexGo (cs : Bool) (lower : List Nat → List Nat)
    (bytes nb : List Nat) (startOffset : Nat) : Option Nat :=
  match searchFuncGo cs lower (bytes.drop startOffset) nb with
  | some index => some (startOffset + index)
  | none => searchFuncGo cs lower bytes nb

/-- The two whole-word boundary booleans of `FindNext`
(text_buffer.go:611-615): the BYTE before the match start and the BYTE
after the match end must not be word characters; byte offsets 0 and
`len(text)` pass automatically. -/
def wwBoundaryOk (bytes : List Nat) (searchIndex matchLength : Nat) : Bool :=
  (searchIndex == 0 || ! isWordByte (bytes.getD (searchIndex - 1) 0)) &&
    (decide (bytes.length ≤ searchIndex + matchLength) ||
      ! isWordByte (bytes.getD (searchIndex + matchLength) 0))

/-- The plain-search (`regex == false`) path of `TextBuffer.FindNext`
(text_buffer.go:588-631), returning the byte index and byte length of
the accepted match.  On a rejected whole-word candidate the source
recurses from `GetPositionAt(searchIndex + 1)`; that recursion need not
terminate (the wrap-around search can revisit the same candidate), so it
is driven by fuel, `none` covering both `NotFound` and exhaustion. -/
def FindNextCore (lower : List Nat → List Nat) (t needle : List Char)
    (cs ww : Bool) : Nat → Position → Option (Nat × Nat)
  | 0, _ => none
  | fuel + 1, startPosition =>
    match findIndexGo cs lower (utf8Encode t) (utf8Encode needle)
        (GetOffsetAt t startPosition).toNat with
    | none => none
    | some searchIndex =>
      if ww then
        if wwBoundaryOk (utf8Encode t) searchIndex (utf8Encode needle).length
        then some (searchIndex, (utf8Encode needle).length)
        else
          FindNextCore lower t needle cs ww fuel
            (GetPositionAt t ((searchIndex : Int) + 1))
      else some (searchIndex, (utf8Encode needle).length)

/-- `FindNext` in plain-search mode as a `Range`: the matched byte
offsets converted back through the SCALAR-indexed `GetPositionAt`
(text_buffer.go:626-630); an empty needle fails immediately. -/
def FindNextPlain (lower : List Nat → List Nat) (t needle : List Char)
    (startPosition : Position) (cs ww : Bool) (fuel : Nat) : Option Range :=
  if needle = [] then none
  else
    match FindNextCore lower t needle cs ww fuel startPosition with
    | none => none
    | some (i, len) =>
      some ⟨GetPositionAt t (i : Int), GetPositionAt t ((i + len : Nat) : Int)⟩

/-- Modelled from the spec: "A word character is any Unicode letter,
Unicode number, or `_`" — at the SCALAR level, given here for code
points up to U+00FF (every scalar of the concrete inputs below is in
that range, where `isWordByte` lists exactly the Latin-1 letters,
numbers and the underscore). -/
def specIsWordScalar (c : Char) : Bool :=
  isWordByte c.toNat

/-- The needle occurs (as a scalar sequence) at scalar index `i`. -/
def occursAtChars (t pattern : List Char) (i : Nat) : Bool :=
  pattern.isPrefixOf (t.drop i)

/-! ### Theorems -/

theorem position_eq_mk (p : Position) (a b : Int) (h1 : a = p.line)
    (h2 : b = p.column) : (⟨a, b⟩ : Position) = p := by
  cases p with
  | mk pl pc => simp only [Position.mk.injEq]; exact ⟨h1, h2⟩

theorem isBeforeOrEqual_iff_lexLE (p q : Position) :
    p.IsBeforeOrEqual q = true ↔ lexLE p q := by
  unfold Position.IsBeforeOrEqual lexLE
  by_cases h1 : p.line < q.line <;>
    by_cases h2 : p.line = q.line ∧ p.column ≤ q.column <;>
      simp [h1, h2] <;> tauto

theorem isBefore_iff_lexLT (p q : Position) :
    p.IsBefore q = true ↔ lexLT p q := by
  unfold Position.IsBefore lexLT
  by_cases h1 : p.line < q.line <;>
    by_cases h2 : p.line = q.line ∧ p.column < q.column <;>
      simp [h1, h2] <;> tauto

theorem not_lexLT_iff (p q : Position) : ¬ lexLT p q ↔ lexLE q p := by
  unfold lexLT lexLE
  constructor
  · intro h
    rcases lt_trichotomy p.line q.line with hl | hl | hl
    · exact absurd (Or.inl hl) h
    · right; exact ⟨hl.symm, by omega⟩
    · left; exact hl
  · intro h hc
    rcases h with h | ⟨h1, h2⟩ <;> rcases hc with hc | ⟨hc1, hc2⟩ <;> omega

/-- C6, counterexample: the claim says a range contains a position iff the
position is at or after the start and STRICTLY before the end.  For the
range `((0,0),(0,1))` and the position `(0,1)` the code's `Contains`
returns `true`, although `(0,1)` is not strictly before the end `(0,1)`. -/
theorem range_contains_end_inclusive_cex :
    (Range.Contains ⟨⟨0, 0⟩, ⟨0, 1⟩⟩ ⟨0, 1⟩ = true) ∧
      ¬ lexLT (⟨0, 1⟩ : Position) (⟨0, 1⟩ : Position) := by
  constructor
  · decide
  · intro h
    rcases h with h | ⟨_, h⟩ <;> omega

/-- C6, amended: `Range.Contains` treats BOTH endpoints inclusively:
`r.Contains p` holds iff `r.start ≤ p` and `p ≤ r.end` under the
lexicographic order on `(line, column)`. -/
theorem range_contains_iff_lexLE (r : Range) (p : Position) :
    r.Contains p = true ↔ (lexLE r.start p ∧ lexLE p r.stop) := by
  unfold Range.Contains Position.IsAfterOrEqual
  rw [Bool.and_eq_true, Bool.not_eq_true']
  rw [← Bool.not_eq_true (p.IsBefore r.start)]
  rw [isBefore_iff_lexLT, isBeforeOrEqual_iff_lexLE]
  constructor
  · rintro ⟨h1, h2⟩
    exact ⟨(not_lexLT_iff _ _).mp h1, h2⟩
  · rintro ⟨h1, h2⟩
    exact ⟨(not_lexLT_iff _ _).mpr h1, h2⟩

/-! ### Facts about the line-start index -/

theorem nlSucc_mem_bounds :
    ∀ (t : List Char) (k m : Nat), m ∈ nlSucc t k → k < m ∧ m ≤ k + t.length := by
  intro t
  induction t with
  | nil => intro k m h; simp [nlSucc] at h
  | cons c rest ih =>
    intro k m h
    unfold nlSucc at h
    by_cases hc : c = '\n'
    · simp [hc] at h
      rcases h with h | h
      · simp only [List.length_cons]
        omega
      · have := ih (k + 1) m h
        simp only [List.length_cons]
        omega
    · simp [hc] at h
      have := ih (k + 1) m h
      simp only [List.length_cons]
      omega

theorem nlSucc_pairwise :
    ∀ (t : List Char) (k : Nat), (nlSucc t k).Pairwise (· < ·) := by
  intro t
  induction t with
  | nil => intro k; simp [nlSucc]
  | cons c rest ih =>
    intro k
    unfold nlSucc
    by_cases hc : c = '\n'
    · simp only [hc, if_pos rfl]
      refine List.Pairwise.cons ?_ (ih (k + 1))
      intro m hm
      exact (nlSucc_mem_bounds rest (k + 1) m hm).1
    · simp only [if_neg hc]
      exact ih (k + 1)

theorem lineStarts_pairwise (t : List Char) :
    (lineStarts t).Pairwise (· < ·) := by
  unfold lineStarts
  refine List.Pairwise.cons ?_ (nlSucc_pairwise t 0)
  intro m hm
  exact (nlSucc_mem_bounds t 0 m hm).1

theorem lineStarts_length_pos (t : List Char) : 0 < (lineStarts t).length := by
  unfold lineStarts; simp

theorem lineStarts_getD_zero (t : List Char) : (lineStarts t).getD 0 0 = 0 := rfl

theorem lineStarts_getD_le_length (t : List Char) (i : Nat)
    (h : i < (lineStarts t).length) : (lineStarts t).getD i 0 ≤ t.length := by
  rw [List.getD_eq_get _ _ h]
  have hmem : (lineStarts t).get ⟨i, h⟩ ∈ lineStarts t := List.get_mem _ _ _
  generalize (lineStarts t).get ⟨i, h⟩ = m at hmem ⊢
  unfold lineStarts at hmem
  rcases List.mem_cons.mp hmem with h0 | hns
  · omega
  · have := nlSucc_mem_bounds t 0 _ hns
    omega

theorem lineStarts_getD_pos (t : List Char) (i : Nat)
    (h : i < (lineStarts t).length) (hi : 0 < i) :
    0 < (lineStarts t).getD i 0 := by
  have hmono := List.pairwise_iff_get.mp (lineStarts_pairwise t)
    ⟨0, lineStarts_length_pos t⟩ ⟨i, h⟩ hi
  rw [List.getD_eq_get _ _ h]
  have h0 : (lineStarts t).get ⟨0, lineStarts_length_pos t⟩ = 0 := rfl
  omega

theorem lineStarts_getD_lt (t : List Char) (i j : Nat)
    (hj : j < (lineStarts t).length) (hij : i < j) :
    (lineStarts t).getD i 0 < (lineStarts t).getD j 0 := by
  have hi : i < (lineStarts t).length := lt_trans hij hj
  rw [List.getD_eq_get _ _ hi, List.getD_eq_get _ _ hj]
  exact List.pairwise_iff_get.mp (lineStarts_pairwise t) ⟨i, hi⟩ ⟨j, hj⟩ hij

/-- The `lineEnd` local sits between the line start and `N`. -/
theorem lineEndOf_bounds (t : List Char) (li : Nat)
    (h : li < (lineStarts t).length) :
    ((lineStarts t).getD li 0 : Int) ≤ lineEndOf t li ∧
      lineEndOf t li ≤ (t.length : Int) := by
  unfold lineEndOf
  by_cases h2 : li < (lineStarts t).length - 1
  · rw [if_pos h2]
    have hnext : li + 1 < (lineStarts t).length := by omega
    have h1 := lineStarts_getD_lt t li (li + 1) hnext (by omega)
    have h3 := lineStarts_getD_le_length t (li + 1) hnext
    constructor <;> omega
  · rw [if_neg h2]
    have h1 := lineStarts_getD_le_length t li h
    constructor <;> omega

/-- The offset produced by `GetOffsetAt` is always a valid absolute
offset in `[0, N]` — out-of-range positions are clamped, never
rejected. -/
theorem getOffsetAt_bounds (t : List Char) (p : Position) :
    0 ≤ GetOffsetAt t p ∧ GetOffsetAt t p ≤ (t.length : Int) := by
  unfold GetOffsetAt
  by_cases h0 : p.line < 0 ∨ p.column < 0
  · rw [if_pos h0]
    constructor <;> omega
  · rw [if_neg h0]
    push_neg at h0
    by_cases h1 : (((lineStarts t).length : Nat) : Int) ≤ p.line
    · rw [if_pos h1]
      constructor <;> omega
    · rw [if_neg h1]
      have hline : p.line.toNat < (lineStarts t).length := by omega
      have hb := lineEndOf_bounds t p.line.toNat hline
      by_cases h2 : ((lineStarts t).getD p.line.toNat 0 : Int) + p.column >
          lineEndOf t p.line.toNat
      · rw [if_pos h2]
        constructor <;> omega
      · rw [if_neg h2]
        constructor <;> omega

/-! ### C9 — undo-stack push semantics and the 100-record cap -/

/-- The inductive invariant behind the cap: the two stacks never hold
more than `maxStackSize` records in total, and the cap of every stack
built by `NewUndoStack` is 100. -/
theorem undoReachable_invariant (s : UndoStack) (h : UndoReachable s) :
    s.undoStack.length + s.redoStack.length ≤ s.maxStackSize ∧
      s.maxStackSize = 100 := by
  induction h with
  | init => simp [NewUndoStack]
  | push s op _ ih =>
    unfold UndoStack.Push
    by_cases hc : s.maxStackSize < (s.undoStack ++ [op]).length
    · simp only [if_pos hc]
      simp only [List.length_drop, List.length_append, List.length_cons,
        List.length_nil]
      simp at hc ⊢
      omega
    · simp only [if_neg hc]
      simp at hc ⊢
      omega
  | undo s _ ih =>
    unfold UndoStack.UndoStep
    cases hlast : s.undoStack.getLast? with
    | none => simpa using ih
    | some op =>
      have hne : s.undoStack ≠ [] := by
        intro he; rw [he] at hlast; simp at hlast
      have hpos : 0 < s.undoStack.length := List.length_pos.mpr hne
      simp only []
      constructor
      · simp only [List.length_dropLast, List.length_append, List.length_cons,
          List.length_nil]
        omega
      · exact ih.2
  | redo s _ ih =>
    unfold UndoStack.RedoStep
    cases hlast : s.redoStack.getLast? with
    | none => simpa using ih
    | some op =>
      have hne : s.redoStack ≠ [] := by
        intro he; rw [he] at hlast; simp at hlast
      have hpos : 0 < s.redoStack.length := List.length_pos.mpr hne
      simp only []
      constructor
      · simp only [List.length_dropLast, List.length_append, List.length_cons,
          List.length_nil]
        omega
      · exact ih.2
  | clear s _ ih =>
    unfold UndoStack.ClearSt
    simpa using ih.2

/-- C9: `Push` appends the record, empties `future` (so `CanRedo` is
false immediately after any push) and evicts exactly the oldest record
when the cap would be exceeded; consequently every reachable undo-log
state satisfies `len(past) ≤ 100`. -/
theorem undoStack_push_and_cap :
    (∀ (s : UndoStack) (op : TextOperation),
        (s.Push op).redoStack = [] ∧ (s.Push op).CanRedo = false ∧
          (s.Push op).undoStack =
            (if s.maxStackSize < s.undoStack.length + 1
             then (s.undoStack ++ [op]).drop 1
             else s.undoStack ++ [op])) ∧
      ∀ s : UndoStack, UndoReachable s → s.undoStack.length ≤ 100 := by
  constructor
  · intro s op
    unfold UndoStack.Push UndoStack.CanRedo
    by_cases hc : s.maxStackSize < (s.undoStack ++ [op]).length
    · have hc' : s.maxStackSize < s.undoStack.length + 1 := by
        simpa using hc
      simp [hc, hc']
    · have hc' : ¬ s.maxStackSize < s.undoStack.length + 1 := by
        simpa using hc
      simp [hc, hc']
  · intro s h
    have := undoReachable_invariant s h
    omega

/-- C9 witness: the cap and push facts at a concrete state. -/
theorem undoStack_push_and_cap_witness :
    (NewUndoStack.Push ⟨.insert, ⟨0, 0⟩, ['a'], []⟩).redoStack = [] ∧
      NewUndoStack.undoStack.length ≤ 100 :=
  ⟨(undoStack_push_and_cap.1 NewUndoStack ⟨.insert, ⟨0, 0⟩, ['a'], []⟩).1,
    undoStack_push_and_cap.2 NewUndoStack UndoReachable.init⟩

/-! ### C2 — undo after `Clear` / `SetText` -/

/-- C2, counterexample: on a buffer whose only edit is
`Insert((0,0), "hi")` (so undo history is non-empty), `Clear()` leaves
`undo()` failing with the no-history error and the text empty; the
claim says `undo()` succeeds and restores `"hi"`. -/
theorem clear_breaks_undo_cex :
    ((NewTextBuffer.Insert ⟨0, 0⟩ "hi".data).1.undoStack.CanUndo = true) ∧
      ((NewTextBuffer.Insert ⟨0, 0⟩ "hi".data).1.ClearBuf.Undo).2 =
        some GoErr.noOperationToUndo ∧
      ((NewTextBuffer.Insert ⟨0, 0⟩ "hi".data).1.ClearBuf.Undo).1.text = [] := by
  decide

/-- C2, amended: `Clear()` and `SetText(s)` do not push `Clear` /
`SetText` undo records — they erase the whole undo/redo history, so
immediately after either operation `undo()` fails with the no-history
error and leaves the text unchanged. -/
theorem clear_setText_discard_history (tb : TextBuffer) (s : List Char) :
    (tb.ClearBuf.undoStack.undoStack = [] ∧
        tb.ClearBuf.undoStack.redoStack = [] ∧
        tb.ClearBuf.Undo.2 = some GoErr.noOperationToUndo ∧
        tb.ClearBuf.Undo.1.text = tb.ClearBuf.text) ∧
      ((tb.SetTextBuf s).undoStack.undoStack = [] ∧
        (tb.SetTextBuf s).undoStack.redoStack = [] ∧
        (tb.SetTextBuf s).Undo.2 = some GoErr.noOperationToUndo ∧
        (tb.SetTextBuf s).Undo.1.text = (tb.SetTextBuf s).text) := by
  constructor <;>
    simp [TextBuffer.ClearBuf, TextBuffer.SetTextBuf, TextBuffer.Undo,
      UndoStack.UndoStep, UndoStack.ClearSt]

/-! ### C7 — `Replace` on an inverted or empty range -/

/-- C7, counterexample: the position `(1,0)` is strictly after `(0,0)`,
yet on an empty buffer `Replace(((1,0),(0,0)), "x")` does NOT fail with
the invalid-range error — both positions clamp to offset 0, and the call
inserts `"x"`. -/
theorem replace_inverted_range_cex :
    ((⟨1, 0⟩ : Position).IsAfter ⟨0, 0⟩ = true) ∧
      (NewTextBuffer.Replace ⟨⟨1, 0⟩, ⟨0, 0⟩⟩ "x".data).2 = none ∧
      (NewTextBuffer.Replace ⟨⟨1, 0⟩, ⟨0, 0⟩⟩ "x".data).1.text = "x".data := by
  decide

/-- C7, amended: `Replace(r, s)` fails with the invalid-range error
exactly when the CLAMPED offsets of the endpoints satisfy
`offset(start) > offset(end)` (a range whose start position is strictly
after its end may still succeed when clamping collapses both to the
same offset); on failure the state is unchanged, and when the clamped
offsets coincide the call succeeds and produces the same text as
`Insert(r.start, s)`. -/
theorem replace_invalid_range_amended (tb : TextBuffer) (r : Range)
    (s : List Char) :
    ((tb.Replace r s).2 = some GoErr.invalidRange ↔
        GetOffsetAt tb.text r.stop < GetOffsetAt tb.text r.start) ∧
      ((tb.Replace r s).2 ≠ none → (tb.Replace r s).1 = tb) ∧
      (GetOffsetAt tb.text r.start = GetOffsetAt tb.text r.stop →
        (tb.Replace r s).2 = none ∧
          (tb.Replace r s).1.text = (tb.Insert r.start s).1.text) := by
  by_cases hc : GetOffsetAt tb.text r.stop < GetOffsetAt tb.text r.start
  · refine ⟨?_, ?_, ?_⟩
    · unfold TextBuffer.Replace
      rw [if_pos hc]
      simp [hc]
    · intro _
      unfold TextBuffer.Replace
      rw [if_pos hc]
    · intro he
      omega
  · have herr : (tb.Replace r s).2 = none := by
      unfold TextBuffer.Replace
      rw [if_neg hc]
    refine ⟨?_, ?_, ?_⟩
    · rw [herr]
      simp [hc]
    · intro h
      exact absurd herr h
    · intro he
      refine ⟨herr, ?_⟩
      have hdel : GapDelete tb.text (GetOffsetAt tb.text r.start)
          (GetOffsetAt tb.text r.stop) = tb.text := by
        unfold GapDelete
        rw [if_pos]
        right; right; omega
      have hrep : (tb.Replace r s).1.text =
          GapInsert tb.text (GetOffsetAt tb.text r.start) s := by
        unfold TextBuffer.Replace
        rw [if_neg hc]
        simp only []
        rw [hdel]
      rw [hrep]
      unfold TextBuffer.Insert
      by_cases hs : s = []
      · rw [if_pos hs]
        subst hs
        unfold GapInsert
        simp
      · rw [if_neg hs]

/-- C7 witness: at offset-equal endpoints the amended replace/insert
agreement holds concretely. -/
theorem replace_invalid_range_amended_witness :
    (NewTextBuffer.Replace ⟨⟨0, 0⟩, ⟨0, 0⟩⟩ "x".data).2 = none ∧
      (NewTextBuffer.Replace ⟨⟨0, 0⟩, ⟨0, 0⟩⟩ "x".data).1.text =
        (NewTextBuffer.Insert ⟨0, 0⟩ "x".data).1.text :=
  (replace_invalid_range_amended NewTextBuffer ⟨⟨0, 0⟩, ⟨0, 0⟩⟩ "x".data).2.2
    (by decide)

/-! ### C10 — `Insert` never reports an error -/

/-- C10: `TextBuffer.Insert` returns no error for any position and any
text: empty text is a successful no-op, and the position — however far
out of range — is first clamped by `GetOffsetAt` to a valid offset in
`[0, N]`, at which the text is spliced in. -/
theorem insert_never_errs (tb : TextBuffer) (p : Position) (s : List Char) :
    (tb.Insert p s).2 = none ∧
      (s = [] → (tb.Insert p s).1 = tb) ∧
      (0 ≤ GetOffsetAt tb.text p ∧ GetOffsetAt tb.text p ≤ (tb.text.length : Int)) ∧
      (tb.Insert p s).1.text = GapInsert tb.text (GetOffsetAt tb.text p) s := by
  refine ⟨?_, ?_, getOffsetAt_bounds tb.text p, ?_⟩
  · unfold TextBuffer.Insert
    by_cases hs : s = []
    · rw [if_pos hs]
    · rw [if_neg hs]
  · intro hs
    unfold TextBuffer.Insert
    rw [if_pos hs]
  · unfold TextBuffer.Insert
    by_cases hs : s = []
    · rw [if_pos hs]
      subst hs
      unfold GapInsert
      simp
    · rw [if_neg hs]

/-- C10 witness: a far out-of-range position (negative line) and a
non-empty text at a concrete buffer. -/
theorem insert_never_errs_witness :
    ((NewTextBufferWithText "ab".data).Insert ⟨-3, 99⟩ "x".data).2 = none ∧
      ((NewTextBufferWithText "ab".data).Insert ⟨-3, 99⟩ "x".data).1.text =
        GapInsert "ab".data (GetOffsetAt "ab".data ⟨-3, 99⟩) "x".data :=
  ⟨(insert_never_errs (NewTextBufferWithText "ab".data) ⟨-3, 99⟩ "x".data).1,
    (insert_never_errs (NewTextBufferWithText "ab".data) ⟨-3, 99⟩ "x".data).2.2.2⟩

/-! ### C4 — `SetText` + `SetEOLType(Unix)` on mixed line endings -/

/-- C4, counterexample: on a freshly created buffer the EOL tag is
already Unix (and `SetText` does not re-detect it), so
`SetEOLType(Unix)` returns immediately without converting anything: the
text keeps its `\r\n` and `\r` terminators and the line count is 3, not
4. -/
theorem setEOLType_noop_cex :
    (((NewTextBuffer.SetTextBuf
          "Line 1\nLine 2\r\nLine 3\rLine 4".data).SetEOLType .unix).2 = none) ∧
      (((NewTextBuffer.SetTextBuf
          "Line 1\nLine 2\r\nLine 3\rLine 4".data).SetEOLType .unix).1.text =
        "Line 1\nLine 2\r\nLine 3\rLine 4".data) ∧
      GetLineCount
        (((NewTextBuffer.SetTextBuf
            "Line 1\nLine 2\r\nLine 3\rLine 4".data).SetEOLType .unix).1.text) = 3 := by
  decide

/-- C4, amended: the claimed normalisation happens provided the
buffer's current EOL tag differs from Unix (e.g. Windows, as it is
after creating a buffer from text containing `"\r\n"`): then
`SetText("Line 1\nLine 2\r\nLine 3\rLine 4")` followed by
`SetEOLType(Unix)` yields `"Line 1\nLine 2\nLine 3\nLine 4"` and a line
count of 4. -/
theorem setEOLType_unix_normalises (tb : TextBuffer)
    (h : tb.eolType = EOLType.windows) :
    (((tb.SetTextBuf "Line 1\nLine 2\r\nLine 3\rLine 4".data).SetEOLType
        .unix).2 = none) ∧
      (((tb.SetTextBuf "Line 1\nLine 2\r\nLine 3\rLine 4".data).SetEOLType
          .unix).1.text = "Line 1\nLine 2\nLine 3\nLine 4".data) ∧
      GetLineCount
        (((tb.SetTextBuf "Line 1\nLine 2\r\nLine 3\rLine 4".data).SetEOLType
            .unix).1.text) = 4 := by
  obtain ⟨txt, us, eol, m⟩ := tb
  have he : eol = EOLType.windows := h
  subst he
  exact ⟨rfl, rfl, rfl⟩

/-- C4 witness: a buffer created from the mixed text carries the
Windows tag, and the amended normalisation holds for it. -/
theorem setEOLType_unix_normalises_witness :
    (((NewTextBufferWithText
          "Line 1\nLine 2\r\nLine 3\rLine 4".data).SetTextBuf
          "Line 1\nLine 2\r\nLine 3\rLine 4".data).SetEOLType .unix).1.text =
        "Line 1\nLine 2\nLine 3\nLine 4".data ∧
      GetLineCount
        (((NewTextBufferWithText
            "Line 1\nLine 2\r\nLine 3\rLine 4".data).SetTextBuf
            "Line 1\nLine 2\r\nLine 3\rLine 4".data).SetEOLType .unix).1.text = 4 :=
  ⟨(setEOLType_unix_normalises
      (NewTextBufferWithText "Line 1\nLine 2\r\nLine 3\rLine 4".data)
      (by decide)).2.1,
    (setEOLType_unix_normalises
      (NewTextBufferWithText "Line 1\nLine 2\r\nLine 3\rLine 4".data)
      (by decide)).2.2⟩

/-! ### C3 — the count returned by regex `ReplaceAll` -/

/-- C3: on the buffer `"ab"`, `ReplaceAll("a", "b", cs, ¬ww, regex)`
performs exactly one replacement (the needle `"a"` occurs once, so the
find-next iteration count is 1, as `countOcc` of the ORIGINAL text
witnesses), yet the call returns 2 — the source computes the count as
`strings.Count(newText, replaceText)`, the occurrences of the
replacement string in the resulting text `"bb"`. -/
theorem replaceAll_regex_count_bug :
    ((NewTextBufferWithText "ab".data).ReplaceAllRegexLit "a".data "b".data).2.1
        = 2 ∧
      ((NewTextBufferWithText "ab".data).ReplaceAllRegexLit "a".data
          "b".data).2.2 = none ∧
      ((NewTextBufferWithText "ab".data).ReplaceAllRegexLit "a".data
          "b".data).1.text = "bb".data ∧
      countOcc "ab".data "a".data = 1 := by
  decide

/-! ### C1 — offset ↔ position round-trip -/

/-- Correctness of the binary-search loop of `GetPositionAt`: starting
from a state whose tracked `line` already satisfies the invariant, the
loop returns the greatest index whose line start is `≤ offset`. -/
theorem bsLoop_spec (L : List Nat) (o : Nat)
    (hmono : ∀ i j : Nat, j < L.length → i < j → L.getD i 0 < L.getD j 0) :
    ∀ (fuel : Nat) (line : Nat) (left right : Int),
      (left = (line : Int) + 1 ∨ (line = 0 ∧ left = 0)) →
      line < L.length →
      L.getD line 0 ≤ o →
      (∀ j : Nat, j < L.length → right < (j : Int) → o < L.getD j 0) →
      right ≤ (L.length : Int) - 1 →
      right + 1 - left ≤ (fuel : Int) →
      bsLoop L o fuel line left right < L.length ∧
        L.getD (bsLoop L o fuel line left right) 0 ≤ o ∧
        ∀ j : Nat, j < L.length → bsLoop L o fuel line left right < j →
          o < L.getD j 0 := by
  intro fuel
  induction fuel with
  | zero =>
    intro line left right hll hlt hle hright _ hfuel
    have hred : bsLoop L o 0 line left right = line := rfl
    rw [hred]
    refine ⟨hlt, hle, ?_⟩
    intro j hj hgt
    apply hright j hj
    rcases hll with h | ⟨h1, h2⟩ <;> omega
  | succ fuel ih =>
    intro line left right hll hlt hle hright hrlen hfuel
    unfold bsLoop
    by_cases hlr : left ≤ right
    · rw [if_pos hlr]
      have hl0 : 0 ≤ left := by rcases hll with h | ⟨h1, h2⟩ <;> omega
      have hmid1 : left ≤ (left + right) / 2 := by omega
      have hmid2 : (left + right) / 2 ≤ right := by omega
      have hmidnat : (((left + right) / 2).toNat : Int) = (left + right) / 2 := by
        omega
      have hmlt : ((left + right) / 2).toNat < L.length := by omega
      by_cases hval : L.getD ((left + right) / 2).toNat 0 ≤ o
      · rw [if_pos hval]
        apply ih ((left + right) / 2).toNat ((left + right) / 2 + 1) right
        · left; omega
        · exact hmlt
        · exact hval
        · exact hright
        · exact hrlen
        · omega
      · rw [if_neg hval]
        apply ih line left ((left + right) / 2 - 1)
        · exact hll
        · exact hlt
        · exact hle
        · intro j hj hgt
          by_cases hje : j = ((left + right) / 2).toNat
          · subst hje; omega
          · have hjgt : ((left + right) / 2).toNat < j := by omega
            have := hmono ((left + right) / 2).toNat j hj hjgt
            omega
        · omega
        · omega
    · rw [if_neg hlr]
      refine ⟨hlt, hle, ?_⟩
      intro j hj hgt
      apply hright j hj
      rcases hll with h | ⟨h1, h2⟩ <;> omega

/-- The binary search of `GetPositionAt` finds the greatest line index
whose start offset is `≤ offset`. -/
theorem bsLine_spec (t : List Char) (o : Nat) :
    bsLine (lineStarts t) o < (lineStarts t).length ∧
      (lineStarts t).getD (bsLine (lineStarts t) o) 0 ≤ o ∧
      ∀ j : Nat, j < (lineStarts t).length → bsLine (lineStarts t) o < j →
        o < (lineStarts t).getD j 0 := by
  unfold bsLine
  apply bsLoop_spec (lineStarts t) o
    (fun i j hj hij => lineStarts_getD_lt t i j hj hij)
  · right; exact ⟨rfl, rfl⟩
  · exact lineStarts_length_pos t
  · rw [lineStarts_getD_zero]; omega
  · intro j hj hgt
    exfalso
    omega
  · omega
  · omega

/-- Round trip 1 for the TEXT-LEVEL (coherent-count) conversions:
converting an offset in `[0, N]` to a position and back is the
identity. -/
theorem getOffsetAt_getPositionAt (t : List Char) (o : Int)
    (h0 : 0 ≤ o) (hN : o ≤ (t.length : Int)) :
    GetOffsetAt t (GetPositionAt t o) = o := by
  have hlenL := lineStarts_length_pos t
  unfold GetPositionAt
  rw [if_neg (by omega)]
  by_cases hend : (t.length : Int) ≤ o
  · -- `o = N`: the past-the-end branch returns the end of the last line.
    rw [if_pos hend]
    have hcount : GetLineCount t ≠ 0 := by unfold GetLineCount; omega
    rw [if_neg hcount]
    simp only [GetLineCount]
    have hlast : (lineStarts t).length - 1 < (lineStarts t).length := by omega
    have hlastle := lineStarts_getD_le_length t ((lineStarts t).length - 1) hlast
    have hstart : getLineStart t (((lineStarts t).length - 1 : Nat) : Int) =
        (lineStarts t).getD ((lineStarts t).length - 1) 0 := by
      unfold getLineStart
      rw [if_neg (by push_neg; constructor <;> omega)]
      simp only [Int.toNat_natCast]
    rw [hstart]
    unfold GetOffsetAt
    dsimp only
    rw [if_neg (by push_neg; constructor <;> omega)]
    rw [if_neg (by push_neg; omega)]
    simp only [Int.toNat_natCast]
    have hloe : lineEndOf t ((lineStarts t).length - 1) = (t.length : Int) := by
      unfold lineEndOf
      rw [if_neg (by omega)]
    rw [hloe]
    rw [if_neg (by omega)]
    omega
  · -- `o < N`: the binary search finds the line containing `o`.
    rw [if_neg hend]
    obtain ⟨hrlt, hrle, hrgt⟩ := bsLine_spec t o.toNat
    unfold GetOffsetAt
    dsimp only
    rw [if_neg (by push_neg; constructor <;> omega)]
    rw [if_neg (by push_neg; omega)]
    simp only [Int.toNat_natCast]
    have hle2 : o ≤ lineEndOf t (bsLine (lineStarts t) o.toNat) := by
      unfold lineEndOf
      by_cases hrlast : bsLine (lineStarts t) o.toNat < (lineStarts t).length - 1
      · rw [if_pos hrlast]
        have := hrgt (bsLine (lineStarts t) o.toNat + 1) (by omega) (by omega)
        omega
      · rw [if_neg hrlast]
        omega
    rw [if_neg (by omega)]
    omega

/-- Round trip 2 for the TEXT-LEVEL (coherent-count) conversions:
converting an addressable position (line within range, column at most
the line length excluding the newline) to an offset and back is the
identity. -/
theorem getPositionAt_getOffsetAt (t : List Char) (p : Position)
    (hl0 : 0 ≤ p.line) (hl : p.line < (GetLineCount t : Int))
    (hc0 : 0 ≤ p.column) (hc : p.column ≤ GetLineLength t p.line) :
    GetPositionAt t (GetOffsetAt t p) = p := by
  have hlenL := lineStarts_length_pos t
  unfold GetLineCount at hl
  have hli : p.line.toNat < (lineStarts t).length := by omega
  have hstartle := lineStarts_getD_le_length t p.line.toNat hli
  unfold GetLineLength at hc
  rw [if_neg (by push_neg; constructor <;> omega)] at hc
  -- the column is within the line, so `GetOffsetAt` does not clamp
  have hoff : GetOffsetAt t p =
      ((lineStarts t).getD p.line.toNat 0 : Int) + p.column := by
    unfold GetOffsetAt
    rw [if_neg (by push_neg; constructor <;> omega)]
    rw [if_neg (by push_neg; omega)]
    rw [if_neg (by omega)]
  rw [hoff]
  by_cases hendo : (t.length : Int) ≤
      ((lineStarts t).getD p.line.toNat 0 : Int) + p.column
  · -- the offset reaches `N` exactly: only possible at the end of the
    -- last line, where the past-the-end branch reproduces `p`
    have hlastline : ¬ p.line.toNat < (lineStarts t).length - 1 := by
      intro hlt
      have hloe : lineEndOf t p.line.toNat =
          ((lineStarts t).getD (p.line.toNat + 1) 0 : Int) - 1 := by
        unfold lineEndOf
        rw [if_pos hlt]
      have h3 := lineStarts_getD_le_length t (p.line.toNat + 1) (by omega)
      omega
    have hloe : lineEndOf t p.line.toNat = (t.length : Int) := by
      unfold lineEndOf
      rw [if_neg hlastline]
    unfold GetPositionAt
    rw [if_neg (by omega)]
    rw [if_pos hendo]
    have hcount : GetLineCount t ≠ 0 := by unfold GetLineCount; omega
    rw [if_neg hcount]
    simp only [GetLineCount]
    have hstart2 : getLineStart t (((lineStarts t).length - 1 : Nat) : Int) =
        (lineStarts t).getD p.line.toNat 0 := by
      unfold getLineStart
      rw [if_neg (by push_neg; constructor <;> omega)]
      simp only [Int.toNat_natCast]
      have : (lineStarts t).length - 1 = p.line.toNat := by omega
      rw [this]
    rw [hstart2]
    apply position_eq_mk <;> omega
  · -- the offset stays below `N`: the binary search recovers the line
    unfold GetPositionAt
    rw [if_neg (by omega)]
    rw [if_neg hendo]
    obtain ⟨hrlt, hrle, hrgt⟩ := bsLine_spec t
      ((((lineStarts t).getD p.line.toNat 0 : Int)) + p.column).toNat
    have hreq : bsLine (lineStarts t)
        ((((lineStarts t).getD p.line.toNat 0 : Int)) + p.column).toNat =
        p.line.toNat := by
      by_cases hcmp : bsLine (lineStarts t)
          ((((lineStarts t).getD p.line.toNat 0 : Int)) + p.column).toNat <
          p.line.toNat
      · have := hrgt p.line.toNat hli hcmp
        omega
      · by_cases hcmp2 : p.line.toNat < bsLine (lineStarts t)
            ((((lineStarts t).getD p.line.toNat 0 : Int)) + p.column).toNat
        · exfalso
          by_cases hrlast : p.line.toNat < (lineStarts t).length - 1
          · have hloe : lineEndOf t p.line.toNat =
                ((lineStarts t).getD (p.line.toNat + 1) 0 : Int) - 1 := by
              unfold lineEndOf
              rw [if_pos hrlast]
            have hmono2 : (lineStarts t).getD (p.line.toNat + 1) 0 ≤
                (lineStarts t).getD (bsLine (lineStarts t)
                  ((((lineStarts t).getD p.line.toNat 0 : Int)) +
                    p.column).toNat) 0 := by
              rcases Nat.eq_or_lt_of_le (show p.line.toNat + 1 ≤
                  bsLine (lineStarts t)
                    ((((lineStarts t).getD p.line.toNat 0 : Int)) +
                      p.column).toNat by omega) with he | hlt2
              · rw [he]
              · exact (lineStarts_getD_lt t _ _ hrlt hlt2).le
            omega
          · omega
        · omega
    rw [hreq]
    apply position_eq_mk <;> omega

/-- On the binary-search branch (`0 ≤ offset < size`) the cache-state
`GetPositionAt` never reads the line count and agrees with the
text-level conversion, whatever the count cache holds. -/
theorem gapBuffer_getPositionAt_lt (gb : GapBuffer) (o : Int) (h0 : 0 ≤ o)
    (hN : o < (gb.text.length : Int)) :
    gb.GetPositionAt o = GetPositionAt gb.text o := by
  unfold GapBuffer.GetPositionAt GetPositionAt
  rw [if_neg (by omega), if_neg (by omega), if_neg (by omega), if_neg (by omega)]

/-- When the count cache is accurate or marked invalid, the cache-state
`GetLineCount` is the recomputed count. -/
theorem gapBuffer_getLineCount_coherent (gb : GapBuffer)
    (h : gb.lineCountCacheValid = true →
      gb.cachedLineCount = (lineStarts gb.text).length) :
    gb.GetLineCount = GetLineCount gb.text := by
  unfold GapBuffer.GetLineCount GetLineCount
  by_cases hv : gb.lineCountCacheValid
  · rw [if_pos hv]
    exact h hv
  · rw [if_neg hv]

/-- When the count cache is accurate or marked invalid, the cache-state
`GetPositionAt` agrees with the text-level conversion everywhere. -/
theorem gapBuffer_getPositionAt_coherent (gb : GapBuffer)
    (h : gb.lineCountCacheValid = true →
      gb.cachedLineCount = (lineStarts gb.text).length) (o : Int) :
    gb.GetPositionAt o = GetPositionAt gb.text o := by
  have hc := gapBuffer_getLineCount_coherent gb h
  unfold GapBuffer.GetPositionAt GetPositionAt
  rw [hc]

/-- C1, counterexample: `NewGapBufferWithText("a\nb")` leaves the
line-count cache at its initial valid value 1 (`SetText` resets only
the line-start cache), so for the in-range offset `N = 3` the
past-the-end branch computes `position_at(3) = (0,3)` and
`offset_at((0,3))` clamps back to 1 ≠ 3: the round trip the claim
states for every offset in `[0, N]` fails at `o = N`. -/
theorem roundTrip_stale_count_cex :
    (NewGapBufferWithText "a\nb".data).lineCountCacheValid = true ∧
      (NewGapBufferWithText "a\nb".data).cachedLineCount = 1 ∧
      "a\nb".data.length = 3 ∧
      (NewGapBufferWithText "a\nb".data).GetPositionAt 3 = ⟨0, 3⟩ ∧
      (NewGapBufferWithText "a\nb".data).GetOffsetAt
        ((NewGapBufferWithText "a\nb".data).GetPositionAt 3) = 1 := by
  refine ⟨rfl, rfl, by decide, by decide, by decide⟩

/-- C1, amended: on the cited gap-buffer variant the round trips hold
away from the stale branch — `offset_at(position_at(o)) = o` for every
offset `o ∈ [0, N)`, and `position_at(offset_at(p)) = p` for every
addressable position whose clamped offset is below `N` — in EVERY cache
state; and both full round trips (including `o = N` and end-of-buffer
positions) hold exactly as originally claimed whenever the cached line
count is accurate or marked invalid (as after the chunked operations,
the only mutators that clear it; `position_at`'s past-the-end branch
otherwise reads the stale count, as the counterexample shows). -/
theorem offset_position_round_trip_amended (gb : GapBuffer) :
    (∀ o : Int, 0 ≤ o → o < (gb.text.length : Int) →
        gb.GetOffsetAt (gb.GetPositionAt o) = o) ∧
      (∀ p : Position, 0 ≤ p.line → p.line < (GetLineCount gb.text : Int) →
        0 ≤ p.column → p.column ≤ GetLineLength gb.text p.line →
        gb.GetOffsetAt p < (gb.text.length : Int) →
        gb.GetPositionAt (gb.GetOffsetAt p) = p) ∧
      ((gb.lineCountCacheValid = true →
          gb.cachedLineCount = (lineStarts gb.text).length) →
        (∀ o : Int, 0 ≤ o → o ≤ (gb.text.length : Int) →
            gb.GetOffsetAt (gb.GetPositionAt o) = o) ∧
          ∀ p : Position, 0 ≤ p.line → p.line < (GetLineCount gb.text : Int) →
            0 ≤ p.column → p.column ≤ GetLineLength gb.text p.line →
            gb.GetPositionAt (gb.GetOffsetAt p) = p) := by
  refine ⟨?_, ?_, ?_⟩
  · intro o h0 hN
    rw [gapBuffer_getPositionAt_lt gb o h0 hN]
    exact getOffsetAt_getPositionAt gb.text o h0 (le_of_lt hN)
  · intro p hl0 hl hc0 hc hofflt
    show gb.GetPositionAt (GetOffsetAt gb.text p) = p
    rw [gapBuffer_getPositionAt_lt gb (GetOffsetAt gb.text p)
      (getOffsetAt_bounds gb.text p).1 hofflt]
    exact getPositionAt_getOffsetAt gb.text p hl0 hl hc0 hc
  · intro hcoh
    constructor
    · intro o h0 hN
      rw [gapBuffer_getPositionAt_coherent gb hcoh o]
      exact getOffsetAt_getPositionAt gb.text o h0 hN
    · intro p hl0 hl hc0 hc
      show gb.GetPositionAt (GetOffsetAt gb.text p) = p
      rw [gapBuffer_getPositionAt_coherent gb hcoh (GetOffsetAt gb.text p)]
      exact getPositionAt_getOffsetAt gb.text p hl0 hl hc0 hc

/-- C1 witness: the amended round trips at a concrete multi-line
buffer whose count cache is marked invalid. -/
theorem offset_position_round_trip_amended_witness :
    (GapBuffer.mk "ab\ncd".data 1 false).GetOffsetAt
        ((GapBuffer.mk "ab\ncd".data 1 false).GetPositionAt 3) = 3 ∧
      (GapBuffer.mk "ab\ncd".data 1 false).GetPositionAt
        ((GapBuffer.mk "ab\ncd".data 1 false).GetOffsetAt ⟨1, 1⟩) = ⟨1, 1⟩ ∧
      (GapBuffer.mk "ab\ncd".data 1 false).GetOffsetAt
        ((GapBuffer.mk "ab\ncd".data 1 false).GetPositionAt 5) = 5 :=
  ⟨(offset_position_round_trip_amended ⟨"ab\ncd".data, 1, false⟩).1 3
      (by decide) (by decide),
    (offset_position_round_trip_amended ⟨"ab\ncd".data, 1, false⟩).2.1 ⟨1, 1⟩
      (by decide) (by decide) (by decide) (by decide) (by decide),
    ((offset_position_round_trip_amended ⟨"ab\ncd".data, 1, false⟩).2.2
        (by intro h; simp at h)).1 5 (by decide) (by decide)⟩

theorem nlSucc_succ : ∀ (t : List Char) (k : Nat),
    nlSucc t (k + 1) = (nlSucc t k).map (· + 1) := by
  intro t
  induction t with
  | nil => intro k; simp [nlSucc]
  | cons c rest ih =>
    intro k
    unfold nlSucc
    by_cases hc : c = '\n' <;> simp [hc, ih (k + 1)]

theorem linesOfCuts_shift {α : Type} (a : α) (rest : List α) :
    ∀ L : List Nat,
      linesOfCuts (a :: rest) (L.map (· + 1)) = linesOfCuts rest L := by
  intro L
  induction L with
  | nil => rfl
  | cons c cs ih =>
    cases cs with
    | nil => simp [linesOfCuts]
    | cons c2 cs2 =>
      simp only [List.map_cons, linesOfCuts] at ih ⊢
      congr 1
      simp only [List.drop_succ_cons, Nat.succ_sub_succ]

theorem nlSucc_cons (c : Char) (rest : List Char) (k : Nat) :
    nlSucc (c :: rest) k =
      if c = '\n' then (k + 1) :: nlSucc rest (k + 1) else nlSucc rest (k + 1) :=
  rfl

theorem specLines_cons (c : Char) (rest : List Char) :
    specLines (c :: rest) =
      if c = '\n' then [c] :: specLines rest
      else
        match specLines rest with
        | [] => [[c]]
        | l :: ls => (c :: l) :: ls :=
  rfl

/-- The slices at the rebuilt line starts are exactly the lines of the
spec: each line carries its trailing newline, the last line runs to the
end. -/
theorem linesOfCuts_lineStarts :
    ∀ t : List Char, linesOfCuts t (lineStarts t) = specLines t := by
  intro t
  induction t with
  | nil => rfl
  | cons c rest ih =>
    unfold lineStarts at ih ⊢
    rw [nlSucc_cons, specLines_cons]
    by_cases hc : c = '\n'
    · rw [if_pos hc, if_pos hc]
      rw [nlSucc_succ]
      show ((c :: rest).drop 0).take (0 + 1 - 0) ::
          linesOfCuts (c :: rest) ((0 + 1) :: (nlSucc rest 0).map (· + 1)) = _
      have h2 : (0 + 1) :: (nlSucc rest 0).map (· + 1) =
          (0 :: nlSucc rest 0).map (· + 1) := by
        simp
      rw [h2, linesOfCuts_shift, ih]
      simp
    · rw [if_neg hc, if_neg hc]
      rw [nlSucc_succ]
      cases hns : nlSucc rest 0 with
      | nil =>
        rw [hns] at ih
        rw [← ih]
        rfl
      | cons m ns2 =>
        rw [hns] at ih
        have hrest : specLines rest =
            (rest.drop 0).take (m - 0) :: linesOfCuts rest (m :: ns2) := by
          rw [← ih]
          rfl
        rw [hrest]
        show ((c :: rest).drop 0).take (m + 1 - 0) ::
            linesOfCuts (c :: rest) ((m + 1) :: ns2.map (· + 1)) =
          (c :: (rest.drop 0).take (m - 0)) :: linesOfCuts rest (m :: ns2)
        have hmap : (m + 1) :: ns2.map (· + 1) = (m :: ns2).map (· + 1) := by
          simp
        rw [hmap, linesOfCuts_shift]
        simp

theorem specLines_flatten : ∀ t : List Char, (specLines t).flatten = t := by
  intro t
  induction t with
  | nil => rfl
  | cons c rest ih =>
    rw [specLines_cons]
    by_cases hc : c = '\n'
    · rw [if_pos hc]
      simp [ih]
    · rw [if_neg hc]
      cases hsl : specLines rest with
      | nil =>
        rw [hsl] at ih
        simp only [List.flatten_nil] at ih
        simp [← ih]
      | cons l ls =>
        rw [hsl] at ih
        simp only [List.flatten_cons] at ih ⊢
        rw [List.cons_append, ih]

theorem utf8Bytes_ne_nil (c : Char) : utf8Bytes c ≠ [] := by
  unfold utf8Bytes
  by_cases h1 : c.toNat < 128
  · simp [h1]
  · by_cases h2 : c.toNat < 2048
    · simp [h1, h2]
    · by_cases h3 : c.toNat < 65536 <;> simp [h1, h2, h3]

theorem length_le_utf8Encode (t : List Char) :
    t.length ≤ (utf8Encode t).length := by
  induction t with
  | nil => simp [utf8Encode]
  | cons c rest ih =>
    unfold utf8Encode at ih ⊢
    simp only [List.map_cons, List.flatten_cons, List.length_append,
      List.length_cons]
    have := utf8Bytes_ne_nil c
    have : 1 ≤ (utf8Bytes c).length := by
      cases h : utf8Bytes c with
      | nil => exact absurd h this
      | cons _ _ => simp
    omega

theorem utf8Encode_ascii (t : List Char) (h : asciiOnly t = true) :
    utf8Encode t = t.map Char.toNat := by
  induction t with
  | nil => rfl
  | cons c rest ih =>
    unfold asciiOnly at h ih
    simp only [List.all_cons, Bool.and_eq_true] at h
    unfold utf8Encode at ih ⊢
    simp only [List.map_cons, List.flatten_cons]
    rw [ih h.2]
    unfold utf8Bytes
    rw [if_pos (by simpa using h.1)]
    rfl

/-- For an in-range index, `GetLineContent` is the (possibly empty)
byte slice between the line start and `lineContEnd` — the `start < end`
guard and the truncating `take` agree on the empty case. -/
theorem getLineContent_eq_slice (t : List Char) (i : Nat)
    (hi : i < (lineStarts t).length) :
    GetLineContent t (i : Int) =
      ((utf8Encode t).drop ((lineStarts t).getD i 0)).take
        (lineContEnd t i - (lineStarts t).getD i 0) := by
  unfold GetLineContent
  rw [if_neg (by omega), if_neg (by push_neg; omega)]
  simp only [Int.toNat_natCast]
  by_cases hlt : (lineStarts t).getD i 0 < lineContEnd t i
  · rw [if_pos hlt]
  · rw [if_neg hlt]
    have : lineContEnd t i - (lineStarts t).getD i 0 = 0 := by omega
    rw [this]
    simp

/-- Indexed slicing over `List.range` is the recursive segmentation
`linesOfCuts`. -/
theorem map_range_slice_eq_linesOfCuts {α : Type} (s : List α) :
    ∀ L : List Nat,
      (List.range L.length).map (fun i =>
        (s.drop (L.getD i 0)).take
          ((if i < L.length - 1 then L.getD (i + 1) 0 else s.length) -
            L.getD i 0)) = linesOfCuts s L
  | [] => rfl
  | [c] => by
    simp only [List.length_cons, List.length_nil, List.range_succ, List.range_zero,
      List.map_append, List.map_cons, List.map_nil, linesOfCuts]
    rw [if_neg (by omega)]
    simp only [List.getD_cons_zero, List.nil_append]
    congr 1
    apply List.take_of_length_le
    simp
  | c1 :: c2 :: cs => by
    have ih := map_range_slice_eq_linesOfCuts s (c2 :: cs)
    rw [show (c1 :: c2 :: cs).length = (c2 :: cs).length + 1 from rfl,
      List.range_succ_eq_map]
    simp only [List.map_cons, List.map_map]
    unfold linesOfCuts
    congr 1
    · rw [if_pos (by simp)]
      rfl
    · rw [← ih]
      apply List.map_congr_left
      intro i hi
      simp only [List.mem_range] at hi
      simp only [Function.comp_apply, List.getD_cons_succ]
      congr 2
      by_cases hlt : i < (c2 :: cs).length - 1
      · rw [if_pos (by simp only [List.length_cons] at hlt ⊢; omega), if_pos hlt]
      · rw [if_neg (by simp only [List.length_cons] at hlt ⊢; omega), if_neg hlt]

theorem drop_take_append_drop {α : Type} (s : List α) (a b : Nat) (h : a ≤ b) :
    (s.drop a).take (b - a) ++ s.drop b = s.drop a := by
  have hb : s.drop b = (s.drop a).drop (b - a) := by
    rw [List.drop_drop]
    congr 1
    omega
  rw [hb, List.take_append_drop]

theorem linesOfCuts_flatten {α : Type} (s : List α) :
    ∀ (c : Nat) (L : List Nat), (c :: L).Pairwise (· < ·) →
      (linesOfCuts s (c :: L)).flatten = s.drop c := by
  intro c L
  induction L generalizing c with
  | nil => intro _; simp [linesOfCuts]
  | cons c2 cs ih =>
    intro hpw
    have h12 : c < c2 := by
      rcases List.pairwise_cons.mp hpw with ⟨hall, _⟩
      exact hall c2 (by simp)
    have htail : (c2 :: cs).Pairwise (· < ·) :=
      (List.pairwise_cons.mp hpw).2
    show ((s.drop c).take (c2 - c) :: linesOfCuts s (c2 :: cs)).flatten = _
    simp only [List.flatten_cons]
    rw [ih c2 htail]
    exact drop_take_append_drop s c c2 (by omega)

/-- `GetLines` on a non-empty buffer is the byte-level segmentation of
the UTF-8 text at the line starts. -/
theorem getLines_eq_linesOfCuts (t : List Char) (ht : t ≠ []) :
    GetLines t = linesOfCuts (utf8Encode t) (lineStarts t) := by
  unfold GetLines
  rw [if_neg ht]
  rw [← map_range_slice_eq_linesOfCuts (utf8Encode t) (lineStarts t)]
  apply List.map_congr_left
  intro i hi
  simp only [List.mem_range] at hi
  rw [getLineContent_eq_slice t i hi]
  rfl

theorem linesOfCuts_map {α β : Type} (f : α → β) (s : List α) :
    ∀ L : List Nat, linesOfCuts (s.map f) L = (linesOfCuts s L).map (List.map f)
  | [] => rfl
  | [c] => by simp [linesOfCuts]
  | c1 :: c2 :: cs => by
    have ih := linesOfCuts_map f s (c2 :: cs)
    unfold linesOfCuts
    rw [ih]
    simp

/-- C5, counterexample: on the buffer `"é\nx"` (the first scalar is
two bytes in UTF-8), `get_line_content(0)` returns the two bytes of
`"é"` WITHOUT the terminating newline — not line 0's scalars including
its `'\n'` as the claim states. -/
theorem getLineContent_multibyte_cex :
    GetLineContent "é\nx".data 0 ≠
        utf8Encode ((specLines "é\nx".data).getD 0 []) ∧
      GetLineContent "é\nx".data 0 = [195, 169] ∧
      utf8Encode ((specLines "é\nx".data).getD 0 []) = [195, 169, 10] := by
  refine ⟨?_, by decide, by decide⟩
  decide

/-- C5, amended: concatenating `get_lines()` yields exactly the UTF-8
bytes of `get_text()` for EVERY buffer; `get_line_content(i)` is empty
for every out-of-range `i`; and on ASCII-only buffers (where byte and
scalar offsets coincide) the lines are exactly the spec's lines — each
including its terminating newline when present. -/
theorem getLines_concat_amended :
    (∀ t : List Char, (GetLines t).flatten = utf8Encode t) ∧
      (∀ (t : List Char) (i : Int),
        i < 0 ∨ (((lineStarts t).length : Nat) : Int) ≤ i →
          GetLineContent t i = []) ∧
      ∀ t : List Char, asciiOnly t = true →
        GetLines t = (specLines t).map utf8Encode := by
  refine ⟨?_, ?_, ?_⟩
  · intro t
    by_cases ht : t = []
    · subst ht; rfl
    · rw [getLines_eq_linesOfCuts t ht]
      have h := linesOfCuts_flatten (utf8Encode t) 0 (nlSucc t 0)
        (lineStarts_pairwise t)
      simpa using h
  · intro t i hi
    unfold GetLineContent
    rcases hi with hi | hi
    · rw [if_pos hi]
    · rw [if_neg (by omega), if_pos hi]
  · intro t hascii
    by_cases ht : t = []
    · subst ht; rfl
    · rw [getLines_eq_linesOfCuts t ht, utf8Encode_ascii t hascii,
        linesOfCuts_map, linesOfCuts_lineStarts]
      apply List.map_congr_left
      intro l hl
      rw [utf8Encode_ascii]
      unfold asciiOnly at hascii ⊢
      rw [List.all_eq_true] at hascii ⊢
      intro c hc
      apply hascii
      rw [← specLines_flatten t]
      exact List.mem_flatten.mpr ⟨l, hl, hc⟩

/-- C5 witness: the amended facts at concrete buffers, among them a
multi-byte one for the concatenation. -/
theorem getLines_concat_amended_witness :
    (GetLines "é\nx".data).flatten = utf8Encode "é\nx".data ∧
      GetLineContent "ab".data 7 = [] ∧
      GetLines "a\nb".data = (specLines "a\nb".data).map utf8Encode :=
  ⟨getLines_concat_amended.1 "é\nx".data,
    getLines_concat_amended.2.1 "ab".data 7 (by right; decide),
    getLines_concat_amended.2.2 "a\nb".data (by decide)⟩

/-- C8, counterexample: on the haystack `"éab"`, whole-word
`find_next("ab", (0,0), cs, ww=true)` ACCEPTS a match, although the only
scalar occurrence of `"ab"` is at scalar index 1 and the scalar
immediately before it, `'é'`, is a Unicode letter — the boundary test
examines the trailing BYTE `0xA9` of the two-byte scalar, which is not a
word character. -/
theorem findNext_wholeWord_multibyte_cex :
    FindNextPlain id "éab".data "ab".data ⟨0, 0⟩ true true 3 =
        some ⟨⟨0, 2⟩, ⟨0, 3⟩⟩ ∧
      (List.range ("éab".data.length + 1)).filter
          (fun i => occursAtChars "éab".data "ab".data i) = [1] ∧
      specIsWordScalar 'é' = true ∧
      "éab".data.getD 0 ' ' = 'é' := by
  refine ⟨by decide, by decide, by decide, by decide⟩

/-- C8, amended: in whole-word plain (non-regex) mode, `find_next`
accepts a match only if the BYTE of the UTF-8 text immediately before
the match start is not a word character and the BYTE immediately after
the match end is not a word character (each byte value read as a code
point; boundaries at byte offset 0 or at the byte length count as
non-word) — for every haystack, needle, start position and
case-sensitivity flag. -/
theorem findNext_wholeWord_byte_boundary (lower : List Nat → List Nat)
    (t needle : List Char) (cs : Bool) :
    ∀ (fuel : Nat) (pos : Position) (bi blen : Nat),
      FindNextCore lower t needle cs true fuel pos = some (bi, blen) →
      (bi = 0 ∨ isWordByte ((utf8Encode t).getD (bi - 1) 0) = false) ∧
        ((utf8Encode t).length ≤ bi + blen ∨
          isWordByte ((utf8Encode t).getD (bi + blen) 0) = false) := by
  intro fuel
  induction fuel with
  | zero =>
    intro pos bi blen h
    exact absurd h (by simp [FindNextCore])
  | succ fuel ih =>
    intro pos bi blen h
    unfold FindNextCore at h
    cases hfound : findIndexGo cs lower (utf8Encode t) (utf8Encode needle)
        (GetOffsetAt t pos).toNat with
    | none =>
      rw [hfound] at h
      exact absurd h (by simp)
    | some searchIndex =>
      rw [hfound] at h
      simp only [if_pos rfl] at h
      by_cases hguard :
          wwBoundaryOk (utf8Encode t) searchIndex (utf8Encode needle).length =
            true
      · rw [if_pos hguard] at h
        have hbi : searchIndex = bi ∧ (utf8Encode needle).length = blen := by
          have := Option.some.inj h
          exact ⟨congrArg Prod.fst this, congrArg Prod.snd this⟩
        obtain ⟨hbi1, hbi2⟩ := hbi
        subst hbi1
        subst hbi2
        unfold wwBoundaryOk at hguard
        simp only [Bool.and_eq_true, Bool.or_eq_true, beq_iff_eq,
          decide_eq_true_eq, Bool.not_eq_true'] at hguard
        exact hguard
      · rw [if_neg hguard] at h
        exact ih (GetPositionAt t ((searchIndex : Int) + 1)) bi blen h

/-- C8 witness: the amended boundary property at the accepted match of
the counterexample run. -/
theorem findNext_wholeWord_byte_boundary_witness :
    (2 = 0 ∨ isWordByte ((utf8Encode "éab".data).getD (2 - 1) 0) = false) ∧
      ((utf8Encode "éab".data).length ≤ 2 + 2 ∨
        isWordByte ((utf8Encode "éab".data).getD (2 + 2) 0) = false) :=
  findNext_wholeWord_byte_boundary id "éab".data "ab".data true 3 ⟨0, 0⟩ 2 2
    (by decide)

end AiEditor
